import Mathlib

set_option maxRecDepth 4000
set_option maxHeartbeats 1000000

/-! Shallow embedding of sieve_of_eratosthenes from src/jpamb/timer.c.

The C function is
  int sieve_of_eratosthenes(int n) {
      if (n <= 1) { return 2; }
      int limit = ceil(n * log(n) + n * log(log(n)));
      char *is_prime = (char*) calloc(limit + 1, sizeof(char));
      if (is_prime == NULL) { fprintf(...); exit(1); }
      int count = 1, i = 2;
      for (; i <= limit + 1; i++) {
          if (is_prime[i] == 0) {
              if (count++ == n) break;
              for (int j = i * 2; j <= limit; j += i) is_prime[j] = 1;
          }
      }
      free(is_prime);
      return i;
  }
The spec names this function find_nth_prime.  Machine ints are modelled as
unbounded integers (no input exercised here approaches 32-bit overflow).
The limit is computed by the C code with double-precision log and ceil; it is
modelled relationally by IsLimit below over the real logarithm, and the sieve
takes the limit value as an explicit argument.  The scan upper bound is
limit + 1 inclusive while the calloc allocation covers indices 0..limit, so
the scan can read one byte past the allocation; the unspecified memory beyond
the buffer is modelled by an explicit heap parameter, and every index the
scan reads is recorded so that in-bounds claims can be settled. -/

/-- Relation fixing the bound the C code computes in line 9 of timer.c:
limit = ceil(n * log(n) + n * log(log(n))), with log the real logarithm. -/
def IsLimit (n : ℤ) (limit : ℕ) : Prop :=
  (limit : ℤ) = ⌈(n : ℝ) * Real.log (n : ℝ) + (n : ℝ) * Real.log (Real.log (n : ℝ))⌉

/-- Memory as returned by calloc(limit + 1, 1): indices 0..limit are zeroed
(false = not composite); bytes past the allocation hold whatever the heap
holds, which the C standard leaves unspecified. -/
def callocMem (limit : ℕ) (heap : ℕ → Bool) : ℕ → Bool :=
  fun k => if k ≤ limit then false else heap k

/-- Observable outcome of the scan loop of sieve_of_eratosthenes: the returned
index i, whether the loop exited through the break (the n-th prime test), the
number of outer iterations executed, the list of indices read from the buffer,
and the final buffer contents. -/
structure SieveRun where
  result : ℕ
  broke : Bool
  steps : ℕ
  reads : List ℕ
  mem : ℕ → Bool

/-- Inner marking loop of timer.c line 22:
for (int j = i * 2; j <= limit; j += i) is_prime[j] = 1;
started at index j, returning the updated memory together with the list of
indices written.  The positivity of the step i is the termination argument;
at the call site i is at least 2. -/
def markMultiples (limit i : ℕ) (hi : 0 < i) (j : ℕ) (mem : ℕ → Bool) :
    (ℕ → Bool) × List ℕ :=
  if _h : j ≤ limit then
    let r := markMultiples limit i hi (j + i) (fun k => if k = j then true else mem k)
    (r.1, j :: r.2)
  else (mem, [])
termination_by limit + 1 - j
decreasing_by all_goals omega

/-- Outer scan loop of timer.c lines 19-24, from an arbitrary state:
for (; i <= limit + 1; i++) {
    if (is_prime[i] == 0) {
        if (count++ == n) break;
        for (int j = i * 2; j <= limit; j += i) is_prime[j] = 1;
    }
}
The loop reads is_prime[i] on every iteration, also when i = limit + 1, one
index past the allocation; the read indices are recorded in reads. -/
def sieveGo (n limit count i : ℕ) (hi : 2 ≤ i) (steps : ℕ) (reads : List ℕ)
    (mem : ℕ → Bool) : SieveRun :=
  if h : i ≤ limit + 1 then
    if mem i = false then
      if count = n then
        { result := i, broke := true, steps := steps + 1, reads := i :: reads, mem := mem }
      else
        sieveGo n limit (count + 1) (i + 1) (by omega) (steps + 1) (i :: reads)
          (markMultiples limit i (by omega) (i * 2) mem).1
    else
      sieveGo n limit count (i + 1) (by omega) (steps + 1) (i :: reads) mem
  else
    { result := i, broke := false, steps := steps, reads := reads, mem := mem }
termination_by limit + 2 - i
decreasing_by all_goals omega

/-- Scan of sieve_of_eratosthenes from its initial state (timer.c line 18):
count = 1, i = 2, memory freshly allocated by calloc(limit + 1, 1). -/
def sieveRun (n : ℤ) (limit : ℕ) (heap : ℕ → Bool) : SieveRun :=
  sieveGo n.toNat limit 1 2 (by omega) 0 [] (callocMem limit heap)

/-- The function int sieve_of_eratosthenes(int n) of timer.c (the spec calls
it find_nth_prime), for the executions in which calloc succeeds.  The limit
argument is the value the C code computes in line 9 (see IsLimit); heap gives
the unspecified bytes past the calloc allocation. -/
def sieve_of_eratosthenes (n : ℤ) (limit : ℕ) (heap : ℕ → Bool) : ℤ :=
  if n ≤ 1 then 2 else ((sieveRun n limit heap).result : ℤ)

/-- Failure mode of the allocation in timer.c lines 12-16: calloc returning
NULL makes the process print to stderr and exit(1), a fatal error producing
no value. -/
inductive SieveError where
  | allocationFailed

/-- sieve_of_eratosthenes with the calloc outcome made explicit: allocOk is
whether calloc succeeds.  On failure the C code reaches exit(1) before any
sieving, modelled as an error result. -/
def sieve_checked (n : ℤ) (limit : ℕ) (allocOk : Bool) (heap : ℕ → Bool) :
    Except SieveError ℤ :=
  if n ≤ 1 then Except.ok 2
  else if allocOk then Except.ok (sieve_of_eratosthenes n limit heap)
  else Except.error SieveError.allocationFailed

/-! Numeric facts about the limit the C code computes for n = 2 and n = 3. -/

theorem one_sub_inv_le_log (x : ℝ) (hx : 0 < x) : 1 - x⁻¹ ≤ Real.log x := by
  have h := Real.log_le_sub_one_of_pos (inv_pos.mpr hx)
  rw [Real.log_inv] at h
  linarith

theorem two_log_three : 2 * Real.log 3 = 3 * Real.log 2 + Real.log (9 / 8) := by
  have h1 : Real.log 9 = 2 * Real.log 3 := by
    rw [show (9 : ℝ) = 3 ^ 2 by norm_num, Real.log_pow]
    norm_num
  have h2 : Real.log 9 = 3 * Real.log 2 + Real.log (9 / 8) := by
    rw [show (9 : ℝ) = 2 ^ 3 * (9 / 8) by norm_num,
      Real.log_mul (by norm_num) (by norm_num), Real.log_pow]
    norm_num
  linarith

theorem log_three_bounds :
    (1.0952763254 : ℝ) ≤ Real.log 3 ∧ Real.log 3 ≤ (1.1022207712 : ℝ) := by
  have h := two_log_three
  have hu : Real.log (9 / 8) ≤ 9 / 8 - 1 := Real.log_le_sub_one_of_pos (by norm_num)
  have hl : 1 - ((9 : ℝ) / 8)⁻¹ ≤ Real.log (9 / 8) := one_sub_inv_le_log _ (by norm_num)
  have h2l := Real.log_two_gt_d9
  have h2u := Real.log_two_lt_d9
  norm_num at hl
  constructor <;> linarith

/-- For n = 2 the C code computes limit = ceil(2 log 2 + 2 log log 2) = 1,
so calloc allocates 2 bytes, indices 0 and 1, while the scan runs i up to
limit + 1 = 2. -/
theorem limit_two : IsLimit 2 1 := by
  unfold IsLimit
  rw [eq_comm, Int.ceil_eq_iff]
  push_cast
  have h2l := Real.log_two_gt_d9
  have h2u := Real.log_two_lt_d9
  have hpos : (0 : ℝ) < Real.log 2 := by linarith
  have hup : Real.log (Real.log 2) ≤ Real.log 2 - 1 :=
    Real.log_le_sub_one_of_pos hpos
  have hlo : 1 - (Real.log 2)⁻¹ ≤ Real.log (Real.log 2) :=
    one_sub_inv_le_log _ hpos
  have hinvpos : 0 < (Real.log 2)⁻¹ := inv_pos.mpr hpos
  have hcancel : Real.log 2 * (Real.log 2)⁻¹ = 1 := mul_inv_cancel₀ (ne_of_gt hpos)
  constructor
  · nlinarith [mul_pos (sub_pos.mpr h2l) hinvpos]
  · linarith

/-- For n = 3 the C code computes limit = ceil(3 log 3 + 3 log log 3) = 4,
so calloc allocates 5 bytes, indices 0..4, while the scan runs i up to
limit + 1 = 5. -/
theorem limit_three : IsLimit 3 4 := by
  unfold IsLimit
  rw [eq_comm, Int.ceil_eq_iff]
  push_cast
  have hb := log_three_bounds
  have hpos : (0 : ℝ) < Real.log 3 := by linarith [hb.1]
  have hone : (1 : ℝ) < Real.log 3 := by linarith [hb.1]
  have hup : Real.log (Real.log 3) ≤ Real.log 3 - 1 :=
    Real.log_le_sub_one_of_pos hpos
  have hlo : 1 - (Real.log 3)⁻¹ ≤ Real.log (Real.log 3) :=
    one_sub_inv_le_log _ hpos
  have hinv : (Real.log 3)⁻¹ < 1 := inv_lt_one_of_one_lt₀ hone
  constructor
  · linarith [hb.1]
  · linarith [hb.2]

/-! Invariants of the marking loop and of the scan loop. -/

theorem markMultiples_mono_aux (limit i : ℕ) (hi : 0 < i) :
    ∀ (d j : ℕ) (mem : ℕ → Bool) (k : ℕ), limit + 1 - j ≤ d → mem k = true →
      (markMultiples limit i hi j mem).1 k = true := by
  intro d
  induction d with
  | zero =>
    intro j mem k hd hk
    unfold markMultiples
    rw [dif_neg (by omega : ¬ j ≤ limit)]
    exact hk
  | succ d ih =>
    intro j mem k hd hk
    unfold markMultiples
    by_cases hj : j ≤ limit
    · rw [dif_pos hj]
      refine ih (j + i) _ k (by omega) ?_
      by_cases hkj : k = j
      · simp [hkj]
      · simp [hkj, hk]
    · rw [dif_neg hj]
      exact hk

/-- Once the marking loop has set an index to true, it stays true. -/
theorem markMultiples_mono (limit i : ℕ) (hi : 0 < i) (j : ℕ) (mem : ℕ → Bool)
    (k : ℕ) (hk : mem k = true) : (markMultiples limit i hi j mem).1 k = true :=
  markMultiples_mono_aux limit i hi (limit + 1) j mem k (by omega) hk

theorem markMultiples_len_aux (limit i : ℕ) (hi : 0 < i) :
    ∀ (d j : ℕ) (mem : ℕ → Bool), limit + 1 - j ≤ d →
      (markMultiples limit i hi j mem).2.length ≤ limit + 1 - j := by
  intro d
  induction d with
  | zero =>
    intro j mem hd
    unfold markMultiples
    rw [dif_neg (by omega : ¬ j ≤ limit)]
    simp
  | succ d ih =>
    intro j mem hd
    unfold markMultiples
    by_cases hj : j ≤ limit
    · rw [dif_pos hj]
      have h2 := ih (j + i) (fun k => if k = j then true else mem k) (by omega)
      simp only [List.length_cons]
      omega
    · rw [dif_neg hj]
      simp

/-- The marking loop performs at most limit + 1 - j writes when started at j. -/
theorem markMultiples_len (limit i : ℕ) (hi : 0 < i) (j : ℕ) (mem : ℕ → Bool) :
    (markMultiples limit i hi j mem).2.length ≤ limit + 1 - j :=
  markMultiples_len_aux limit i hi (limit + 1) j mem (by omega)

theorem sieveGo_mono_aux :
    ∀ (d n limit count i : ℕ) (hi : 2 ≤ i) (steps : ℕ) (reads : List ℕ)
      (mem : ℕ → Bool) (k : ℕ), limit + 2 - i ≤ d → mem k = true →
      (sieveGo n limit count i hi steps reads mem).mem k = true := by
  intro d
  induction d with
  | zero =>
    intro n limit count i hi steps reads mem k hd hk
    unfold sieveGo
    rw [dif_neg (by omega : ¬ i ≤ limit + 1)]
    exact hk
  | succ d ih =>
    intro n limit count i hi steps reads mem k hd hk
    unfold sieveGo
    by_cases hle : i ≤ limit + 1
    · rw [dif_pos hle]
      by_cases hm : mem i = false
      · rw [if_pos hm]
        by_cases hc : count = n
        · rw [if_pos hc]
          exact hk
        · rw [if_neg hc]
          exact ih n limit (count + 1) (i + 1) (by omega) (steps + 1) (i :: reads) _ k
            (by omega) (markMultiples_mono limit i (by omega) (i * 2) mem k hk)
      · rw [if_neg hm]
        exact ih n limit count (i + 1) (by omega) (steps + 1) (i :: reads) mem k
          (by omega) hk
    · rw [dif_neg hle]
      exact hk

/-- Once the scan has set a buffer entry to true, it stays true for the rest
of the call. -/
theorem sieveGo_mono (n limit count i : ℕ) (hi : 2 ≤ i) (steps : ℕ)
    (reads : List ℕ) (mem : ℕ → Bool) (k : ℕ) (hk : mem k = true) :
    (sieveGo n limit count i hi steps reads mem).mem k = true :=
  sieveGo_mono_aux (limit + 2) n limit count i hi steps reads mem k (by omega) hk

theorem sieveGo_steps_aux :
    ∀ (d n limit count i : ℕ) (hi : 2 ≤ i) (steps : ℕ) (reads : List ℕ)
      (mem : ℕ → Bool), limit + 2 - i ≤ d →
      (sieveGo n limit count i hi steps reads mem).steps ≤ steps + (limit + 2 - i) := by
  intro d
  induction d with
  | zero =>
    intro n limit count i hi steps reads mem hd
    unfold sieveGo
    rw [dif_neg (by omega : ¬ i ≤ limit + 1)]
    exact Nat.le_add_right _ _
  | succ d ih =>
    intro n limit count i hi steps reads mem hd
    unfold sieveGo
    by_cases hle : i ≤ limit + 1
    · rw [dif_pos hle]
      by_cases hm : mem i = false
      · rw [if_pos hm]
        by_cases hc : count = n
        · rw [if_pos hc]
          show steps + 1 ≤ steps + (limit + 2 - i)
          omega
        · rw [if_neg hc]
          have h2 := ih n limit (count + 1) (i + 1) (by omega) (steps + 1) (i :: reads)
            (markMultiples limit i (by omega) (i * 2) mem).1 (by omega)
          omega
      · rw [if_neg hm]
        have h2 := ih n limit count (i + 1) (by omega) (steps + 1) (i :: reads) mem
          (by omega)
        omega
    · rw [dif_neg hle]
      exact Nat.le_add_right _ _

/-- The scan started at i = 2 executes at most limit iterations. -/
theorem sieveRun_steps (n : ℤ) (limit : ℕ) (heap : ℕ → Bool) :
    (sieveRun n limit heap).steps ≤ limit := by
  unfold sieveRun
  have h := sieveGo_steps_aux (limit + 2) n.toNat limit 1 2 (by omega) 0 []
    (callocMem limit heap) (by omega)
  omega

theorem sieveGo_result_aux :
    ∀ (d n limit count i : ℕ) (hi : 2 ≤ i) (steps : ℕ) (reads : List ℕ)
      (mem : ℕ → Bool), limit + 2 - i ≤ d → i ≤ limit + 2 →
      (sieveGo n limit count i hi steps reads mem).result ≤ limit + 2 := by
  intro d
  induction d with
  | zero =>
    intro n limit count i hi steps reads mem hd hle2
    unfold sieveGo
    rw [dif_neg (by omega : ¬ i ≤ limit + 1)]
    exact hle2
  | succ d ih =>
    intro n limit count i hi steps reads mem hd hle2
    unfold sieveGo
    by_cases hle : i ≤ limit + 1
    · rw [dif_pos hle]
      by_cases hm : mem i = false
      · rw [if_pos hm]
        by_cases hc : count = n
        · rw [if_pos hc]
          show i ≤ limit + 2
          omega
        · rw [if_neg hc]
          exact ih n limit (count + 1) (i + 1) (by omega) (steps + 1) (i :: reads) _
            (by omega) (by omega)
      · rw [if_neg hm]
        exact ih n limit count (i + 1) (by omega) (steps + 1) (i :: reads) mem
          (by omega) (by omega)
    · rw [dif_neg hle]
      exact hle2

/-- The index the scan returns never exceeds limit + 2. -/
theorem sieveRun_result_le (n : ℤ) (limit : ℕ) (heap : ℕ → Bool) :
    (sieveRun n limit heap).result ≤ limit + 2 := by
  unfold sieveRun
  exact sieveGo_result_aux (limit + 2) n.toNat limit 1 2 (by omega) 0 []
    (callocMem limit heap) (by omega) (by omega)

/-! Claim theorems. -/

/-- C1.  The spec asserts find_nth_prime(3) = 5.  With the limit the code
computes for n = 3, namely 4 (limit_three), the scan reads is_prime[5], one
byte past the calloc(5) allocation.  When that unspecified byte is nonzero
the function skips the prime 5 and returns 6; when it is zero it returns 5.
The returned value therefore depends on memory outside the buffer and is not
guaranteed to be the 3rd prime. -/
theorem sieve_nth_value_bug :
    IsLimit 3 4 ∧
    sieve_of_eratosthenes 3 4 (fun _ => true) = 6 ∧
    sieve_of_eratosthenes 3 4 (fun _ => false) = 5 := by
  refine ⟨limit_three, ?_, ?_⟩ <;>
    simp [sieve_of_eratosthenes, sieveRun, sieveGo, markMultiples, callocMem]

/-- C2.  When the scan exhausts its range without the break firing (here
n = 3 with a nonzero heap byte past the buffer), the code performs no
count-versus-n check and surfaces no error: it returns the plain value
i = limit + 2 = 6, a garbage index, as an ordinary success result. -/
theorem sieve_exhaust_no_detection :
    IsLimit 3 4 ∧
    (sieveRun 3 4 (fun _ => true)).broke = false ∧
    sieve_checked 3 4 true (fun _ => true) = Except.ok (4 + 2) := by
  refine ⟨limit_three, ?_, ?_⟩ <;>
    simp [sieve_checked, sieve_of_eratosthenes, sieveRun, sieveGo, markMultiples,
      callocMem]

/-- C3.  For n = 2 the computed limit is 1 (limit_two), so calloc covers
indices 0 and 1, yet the scan reads is_prime[2]: the recorded read list of
the run is [2], and 2 exceeds limit = 1.  The claim that every access stays
within 0..limit for all n greater or equal 2 fails already at n = 2. -/
theorem sieve_scan_reads_past_buffer :
    IsLimit 2 1 ∧ (sieveRun 2 1 (fun _ => false)).reads = [2] ∧ ¬ (2 ≤ 1) := by
  refine ⟨limit_two, ?_, by decide⟩
  simp [sieveRun, sieveGo, markMultiples, callocMem]

/-- C4.  For every n at most 1 the function returns 2 immediately: no input
error is signalled, and the result is Except.ok 2 for any allocation outcome
and any heap, because neither the allocation nor the scan is reached. -/
theorem sieve_small_n_returns_two (n : ℤ) (hn : n ≤ 1) (limit : ℕ) (allocOk : Bool)
    (heap : ℕ → Bool) :
    sieve_of_eratosthenes n limit heap = 2 ∧
    sieve_checked n limit allocOk heap = Except.ok 2 := by
  constructor
  · unfold sieve_of_eratosthenes
    rw [if_pos hn]
  · unfold sieve_checked
    rw [if_pos hn]

theorem sieve_small_n_returns_two_wit :
    (-5 : ℤ) ≤ 1 ∧
    (sieve_of_eratosthenes (-5) 0 (fun _ => false) = 2 ∧
      sieve_checked (-5) 0 false (fun _ => false) = Except.ok 2) :=
  ⟨by decide, sieve_small_n_returns_two (-5) (by decide) 0 false (fun _ => false)⟩

/-- C6.  The spec asserts the result of find_nth_prime is always prime.  For
n = 3 with a nonzero heap byte past the buffer, the function returns 6,
which has the divisor 2, different from 1 and from 6. -/
theorem sieve_result_composite_bug :
    IsLimit 3 4 ∧
    sieve_of_eratosthenes 3 4 (fun _ => true) = 6 ∧
    (2 : ℤ) ∣ 6 ∧ (2 : ℤ) ≠ 1 ∧ (2 : ℤ) ≠ 6 := by
  refine ⟨limit_three, ?_, ⟨3, by norm_num⟩, by decide, by decide⟩
  simp [sieve_of_eratosthenes, sieveRun, sieveGo, markMultiples, callocMem]

/-- C7.  The marking buffer starts all false within the allocation, and no
step of the call ever resets an entry: from any state, an entry that is true
stays true in the final buffer of the scan. -/
theorem sieve_mark_monotone :
    (∀ (limit : ℕ) (heap : ℕ → Bool) (k : ℕ), k ≤ limit →
      callocMem limit heap k = false) ∧
    (∀ (n limit count i : ℕ) (hi : 2 ≤ i) (steps : ℕ) (reads : List ℕ)
      (mem : ℕ → Bool) (k : ℕ), mem k = true →
      (sieveGo n limit count i hi steps reads mem).mem k = true) := by
  constructor
  · intro limit heap k hk
    simp [callocMem, hk]
  · intro n limit count i hi steps reads mem k hk
    exact sieveGo_mono n limit count i hi steps reads mem k hk

theorem sieve_mark_monotone_wit :
    ((3 : ℕ) ≤ 4 ∧ callocMem 4 (fun _ => true) 3 = false) ∧
    ((fun _ : ℕ => true) 7 = true ∧
      (sieveGo 5 4 1 2 (le_refl 2) 0 [] (fun _ => true)).mem 7 = true) :=
  ⟨⟨by decide, sieve_mark_monotone.1 4 (fun _ => true) 3 (by decide)⟩,
   ⟨rfl, sieve_mark_monotone.2 5 4 1 2 (le_refl 2) 0 [] (fun _ => true) 7 rfl⟩⟩

/-- C8.  When calloc fails (allocOk = false) for an n that reaches the
allocation, the call is a fatal resource error: the result is the explicit
allocation-failure error, it is never a success value, and no sieving
happens, the outcome being independent of the heap. -/
theorem sieve_alloc_failure_fatal (n : ℤ) (hn : 2 ≤ n) (limit : ℕ) (heap : ℕ → Bool) :
    sieve_checked n limit false heap = Except.error SieveError.allocationFailed ∧
    (∀ v : ℤ, sieve_checked n limit false heap ≠ Except.ok v) ∧
    (∀ heap2 : ℕ → Bool,
      sieve_checked n limit false heap = sieve_checked n limit false heap2) := by
  have h1 : ¬ n ≤ 1 := by omega
  refine ⟨?_, ?_, ?_⟩ <;> simp [sieve_checked, h1]

theorem sieve_alloc_failure_fatal_wit :
    (2 : ℤ) ≤ 2 ∧
    sieve_checked 2 1 false (fun _ => false) = Except.error SieveError.allocationFailed :=
  ⟨by decide, (sieve_alloc_failure_fatal 2 (by decide) 1 (fun _ => false)).1⟩

/-- C9.  The scan always terminates: the modelled loops are total functions,
the outer scan from i = 2 executes at most limit + 1 iterations, and any one
inner marking loop started at j at least 2 performs at most limit writes. -/
theorem sieve_scan_bounded :
    (∀ (n : ℤ) (limit : ℕ) (heap : ℕ → Bool), (sieveRun n limit heap).steps ≤ limit + 1) ∧
    (∀ (limit i : ℕ) (hi : 0 < i) (j : ℕ) (mem : ℕ → Bool), 2 ≤ j →
      (markMultiples limit i hi j mem).2.length ≤ limit) := by
  constructor
  · intro n limit heap
    have h := sieveRun_steps n limit heap
    omega
  · intro limit i hi j mem hj
    have h := markMultiples_len limit i hi j mem
    omega

theorem sieve_scan_bounded_wit :
    (sieveRun 5 3 (fun _ => false)).steps ≤ 3 + 1 ∧
    (2 ≤ 4 ∧ (markMultiples 3 2 (Nat.succ_pos 1) 4 (fun _ => false)).2.length ≤ 3) :=
  ⟨sieve_scan_bounded.1 5 3 (fun _ => false),
   by decide, sieve_scan_bounded.2 3 2 (Nat.succ_pos 1) 4 (fun _ => false) (by decide)⟩

/-- C10.  For every n at least 2 with the limit the code computes and a
successful allocation, the returned scan index is at most limit + 2: the
loop either breaks at some i at most limit + 1 or exits with i = limit + 2. -/
theorem sieve_result_le_limit_add_two (n : ℤ) (limit : ℕ) (heap : ℕ → Bool)
    (hn : 2 ≤ n) (_hl : IsLimit n limit) :
    sieve_of_eratosthenes n limit heap ≤ (limit : ℤ) + 2 := by
  unfold sieve_of_eratosthenes
  rw [if_neg (by omega : ¬ n ≤ 1)]
  exact_mod_cast Nat.cast_le.mpr (sieveRun_result_le n limit heap)

theorem sieve_result_le_limit_add_two_wit :
    ((2 : ℤ) ≤ 2 ∧ IsLimit 2 1) ∧
    sieve_of_eratosthenes 2 1 (fun _ => false) ≤ ((1 : ℕ) : ℤ) + 2 :=
  ⟨⟨by decide, limit_two⟩,
   sieve_result_le_limit_add_two 2 1 (fun _ => false) (by decide) limit_two⟩
